import Mathlib

/-!
Verification of the elvui-manager update/install pipeline (src/src/main.rs).

The program is embedded shallowly:

* Filesystem state is a flat association list from absolute paths
  (lists of components) to a node kind (directory or file).  The
  operations the program performs (`is_dir`, `remove_dir_all`,
  `rename`, creating the scratch directory, downloading a file,
  extracting the archive) act on this state; fallible external effects
  (network, I/O permission failures) are driven by an explicit
  environment of injected outcomes so that every failure path of the
  Rust code is reachable in the model.
* `fetch_installed_version` (main.rs lines 79-90) is embedded with the
  regex `Version: (?P<version>[|\d\.]+)` modelled as a leftmost scan
  for the literal `Version: ` followed by a maximal nonempty run of
  characters from the class bar/digit/dot.  The `unwrap` on a failed
  capture is modelled as the distinguished `panicked` outcome.
* The update decision of `main` (lines 37-65) is embedded as
  `install_needed`; the comparison of the external version-compare
  crate is modelled from the spec's Version Model contract.
* `install` (lines 112-167) is embedded as a function from an
  environment, the addons path, the version string and the filesystem
  to a result, a final filesystem and a trace of the effects performed.
-/

namespace Elvui

/-! ### Paths -/

/-- A filesystem path, as a list of components. -/
abbrev Path := List String

/-- `pfx p q` holds when the path `p` is a (not necessarily proper)
prefix of the path `q`, i.e. `q` is `p` itself or lies below `p`. -/
def pfx : Path → Path → Bool
  | [], _ => true
  | _ :: _, [] => false
  | a :: p, b :: q => a == b && pfx p q

theorem pfx_append (p q : Path) : pfx p (p ++ q) = true := by
  induction p with
  | nil => rfl
  | cons a p ih => simp [pfx, ih]

theorem pfx_refl (p : Path) : pfx p p = true := by
  simpa using pfx_append p []

theorem pfx_trans {a b c : Path} (h1 : pfx a b = true) (h2 : pfx b c = true) :
    pfx a c = true := by
  induction a generalizing b c with
  | nil => rfl
  | cons x a ih =>
    cases b with
    | nil => simp [pfx] at h1
    | cons y b =>
      cases c with
      | nil => simp [pfx] at h2
      | cons z c =>
        simp only [pfx, Bool.and_eq_true, beq_iff_eq] at h1 h2 ⊢
        exact ⟨h1.1.trans h2.1, ih h1.2 h2.2⟩

theorem pfx_append_cases {a b : Path} (c : Path) (h : pfx a (b ++ c) = true) :
    pfx a b = true ∨ pfx b a = true := by
  induction a generalizing b with
  | nil => exact Or.inl rfl
  | cons x a ih =>
    cases b with
    | nil => exact Or.inr rfl
    | cons y b =>
      simp only [List.cons_append, pfx, Bool.and_eq_true, beq_iff_eq] at h ⊢
      rcases ih h.2 with h1 | h1
      · exact Or.inl ⟨h.1, h1⟩
      · exact Or.inr ⟨h.1.symm, h1⟩

theorem pfx_snoc_ne {a b : String} (p : Path) (h : a ≠ b) :
    pfx (p ++ [a]) (p ++ [b]) = false := by
  induction p with
  | nil => simp [pfx, h]
  | cons x p ih => simp [pfx, ih]

/-! ### Filesystem model -/

/-- The kind of a filesystem node. -/
inductive NodeKind where
  | dir
  | file
deriving DecidableEq

/-- A filesystem: a flat association of absolute paths to node kinds. -/
abbrev FS := List (Path × NodeKind)

/-- Whether some node exists at path `p` (Rust `Path::exists`). -/
def existsPath (fs : FS) (p : Path) : Bool :=
  fs.any (fun e => e.1 == p)

/-- Whether a directory exists at path `p` (Rust `Path::is_dir`). -/
def isDir (fs : FS) (p : Path) : Bool :=
  fs.any (fun e => e.1 == p && e.2 == NodeKind.dir)

/-- Remove the whole subtree rooted at `r` (Rust `fs::remove_dir_all`). -/
def removeSubtree (fs : FS) (r : Path) : FS :=
  fs.filter (fun e => !(pfx r e.1))

/-- Move the whole subtree rooted at `src` to `dst`
(the state change of a successful Rust `fs::rename`). -/
def moveSubtree (fs : FS) (src dst : Path) : FS :=
  fs.map (fun e => if pfx src e.1 then (dst ++ e.1.drop src.length, e.2) else e)

theorem bool_ext {a b : Bool} (h : a = true ↔ b = true) : a = b := by
  cases a <;> cases b <;> simp_all

theorem isDir_iff (fs : FS) (p : Path) :
    isDir fs p = true ↔ (p, NodeKind.dir) ∈ fs := by
  constructor
  · intro h
    simp only [isDir, List.any_eq_true, Bool.and_eq_true, beq_iff_eq] at h
    obtain ⟨⟨e1, e2⟩, he, h1, h2⟩ := h
    cases h1; cases h2; exact he
  · intro h
    simp only [isDir, List.any_eq_true, Bool.and_eq_true, beq_iff_eq]
    exact ⟨(p, NodeKind.dir), h, rfl, rfl⟩

theorem existsPath_iff (fs : FS) (p : Path) :
    existsPath fs p = true ↔ ∃ k, (p, k) ∈ fs := by
  constructor
  · intro h
    simp only [existsPath, List.any_eq_true, beq_iff_eq] at h
    obtain ⟨⟨e1, e2⟩, he, h1⟩ := h
    cases h1; exact ⟨e2, he⟩
  · rintro ⟨k, h⟩
    simp only [existsPath, List.any_eq_true, beq_iff_eq]
    exact ⟨(p, k), h, rfl⟩

theorem existsPath_of_isDir {fs : FS} {p : Path} (h : isDir fs p = true) :
    existsPath fs p = true :=
  (existsPath_iff fs p).mpr ⟨NodeKind.dir, (isDir_iff fs p).mp h⟩

theorem mem_removeSubtree_of {r p : Path} {k : NodeKind} (fs : FS)
    (h : pfx r p = false) :
    ((p, k) ∈ removeSubtree fs r) ↔ (p, k) ∈ fs := by
  simp [removeSubtree, List.mem_filter, h]

theorem isDir_removeSubtree_of {r p : Path} (fs : FS) (h : pfx r p = false) :
    isDir (removeSubtree fs r) p = isDir fs p :=
  bool_ext (by rw [isDir_iff, isDir_iff]; exact mem_removeSubtree_of fs h)

theorem existsPath_removeSubtree_of {r p : Path} (fs : FS) (h : pfx r p = false) :
    existsPath (removeSubtree fs r) p = existsPath fs p := by
  apply bool_ext
  rw [existsPath_iff, existsPath_iff]
  exact ⟨fun ⟨k, hk⟩ => ⟨k, (mem_removeSubtree_of fs h).mp hk⟩,
         fun ⟨k, hk⟩ => ⟨k, (mem_removeSubtree_of fs h).mpr hk⟩⟩

theorem existsPath_removeSubtree_under {r p : Path} (fs : FS) (h : pfx r p = true) :
    existsPath (removeSubtree fs r) p = false := by
  cases hx : existsPath (removeSubtree fs r) p with
  | false => rfl
  | true =>
    rw [existsPath_iff] at hx
    obtain ⟨k, hk⟩ := hx
    have h2 := (List.mem_filter.mp hk).2
    rw [h] at h2
    simp at h2

theorem mem_moveSubtree_of {src dst p : Path} {k : NodeKind} (fs : FS)
    (hs : pfx src p = false) (hd : pfx dst p = false) :
    ((p, k) ∈ moveSubtree fs src dst) ↔ (p, k) ∈ fs := by
  simp only [moveSubtree, List.mem_map]
  constructor
  · rintro ⟨⟨e1, e2⟩, he, heq⟩
    by_cases hp : pfx src e1 = true
    · rw [if_pos hp] at heq
      rw [Prod.mk.injEq] at heq
      exfalso
      have : pfx dst p = true := by
        rw [← heq.1]; exact pfx_append dst _
      rw [hd] at this; cases this
    · rw [if_neg hp] at heq
      rw [heq] at he; exact he
  · intro h
    refine ⟨(p, k), h, ?_⟩
    rw [if_neg (by simp [hs])]

theorem isDir_moveSubtree_of {src dst p : Path} (fs : FS)
    (hs : pfx src p = false) (hd : pfx dst p = false) :
    isDir (moveSubtree fs src dst) p = isDir fs p :=
  bool_ext (by rw [isDir_iff, isDir_iff]; exact mem_moveSubtree_of fs hs hd)

theorem existsPath_moveSubtree_of {src dst p : Path} (fs : FS)
    (hs : pfx src p = false) (hd : pfx dst p = false) :
    existsPath (moveSubtree fs src dst) p = existsPath fs p := by
  apply bool_ext
  rw [existsPath_iff, existsPath_iff]
  exact ⟨fun ⟨k, hk⟩ => ⟨k, (mem_moveSubtree_of fs hs hd).mp hk⟩,
         fun ⟨k, hk⟩ => ⟨k, (mem_moveSubtree_of fs hs hd).mpr hk⟩⟩

theorem isDir_moveSubtree_self {src dst : Path} (fs : FS)
    (h : isDir fs src = true) :
    isDir (moveSubtree fs src dst) dst = true := by
  rw [isDir_iff] at h ⊢
  refine List.mem_map.mpr ⟨(src, NodeKind.dir), h, ?_⟩
  simp [pfx_refl, List.drop_length]

/-! ### Manifest reader (`fetch_installed_version`, main.rs lines 79-90) -/

/-- The character class `[|\d\.]` of the regex
`Version: (?P<version>[|\d\.]+)` in main.rs line 86. -/
def versionClassChar (c : Char) : Bool :=
  c == '|' || c.isDigit || c == '.'

/-- Try to strip a literal (first argument) from the front of a
character stream; `none` when the literal does not match. -/
def stripLit : List Char → List Char → Option (List Char)
  | [], cs => some cs
  | _ :: _, [] => none
  | l :: ls, c :: cs => if c == l then stripLit ls cs else none

/-- The first capture of the regex `Version: (?P<version>[|\d\.]+)`
over a character stream: the leftmost position at which the literal
`Version: ` is followed by at least one class character, capturing the
maximal run of class characters (main.rs lines 86-87). -/
def findVersionCapture : List Char → Option String
  | [] => none
  | c :: cs =>
    match stripLit ("Version: ".data) (c :: cs) with
    | some tail =>
      let run := tail.takeWhile versionClassChar
      if run.isEmpty then findVersionCapture cs else some run.asString
    | none => findVersionCapture cs

/-- The manifest path `addons_path.join("ElvUI/ElvUI_Mainline.toc")`
(main.rs line 80). -/
def manifestPath (addonsPath : Path) : Path :=
  addonsPath ++ ["ElvUI", "ElvUI_Mainline.toc"]

/-- The possible outcomes of `fetch_installed_version`: an `Ok` version
string, an `Err` (the `?` on `read_to_string` with its anyhow context),
or a panic (`.unwrap()` on a failed regex capture, main.rs line 87),
which aborts the process instead of returning. -/
inductive FetchOutcome where
  | ok (v : String)
  | err (e : String)
  | panicked
deriving DecidableEq

/-- Embeds `fetch_installed_version` (main.rs lines 79-90).  The result
of `std::fs::read_to_string` on the manifest is passed in as
`readResult`: `Except.error e` stands for any I/O failure (missing
file, permission denial, disk error) with description `e`. -/
def fetch_installed_version (addonsPath : Path) (readResult : Except String String) :
    FetchOutcome :=
  match readResult with
  | Except.error e =>
    FetchOutcome.err
      ("could not read file " ++ String.intercalate "/" (manifestPath addonsPath) ++ ": " ++ e)
  | Except.ok content =>
    match findVersionCapture content.data with
    | some v => FetchOutcome.ok v
    | none => FetchOutcome.panicked

/-! ### Version model

The comparison itself lives in the external version-compare crate
(`version_compare::Version`), which is not part of this repository, so
it is modelled from the spec's Version Model contract. -/

/-- Numeric value of a digit run. -/
def digitsToNat (cs : List Char) : Nat :=
  cs.foldl (fun n c => 10 * n + (c.toNat - Char.toNat '0')) 0

/-- Split a character stream at every dot (the segments of a dotted
version string). -/
def splitSegs : List Char → List (List Char)
  | [] => [[]]
  | c :: cs =>
    if c == '.' then [] :: splitSegs cs
    else
      match splitSegs cs with
      | [] => [[c]]
      | s :: rest => (c :: s) :: rest

/-- Modelled from the spec: parsing of the external version-compare
crate on the dotted-numeric version strings this program handles
(spec section 4.1): split on the dot; every segment must be a nonempty
digit run, read as an unsigned integer; otherwise a parse failure. -/
def parseVersion (s : String) : Option (List Nat) :=
  let segs := splitSegs s.data
  if segs.all (fun seg => !seg.isEmpty && seg.all Char.isDigit) then
    some (segs.map digitsToNat)
  else none

/-- Modelled from the spec: the ordering of the external
version-compare crate on parsed dotted-numeric versions (spec section
4.1): compare component-wise numerically, the shorter sequence padded
with zeros (an exhausted side compares as zero against the rest of the
other side). -/
def cmpVersions : List Nat → List Nat → Ordering
  | [], b => if b.all (fun x => x == 0) then Ordering.eq else Ordering.lt
  | a :: as, [] => if a == 0 then cmpVersions as [] else Ordering.gt
  | a :: as, b :: bs =>
    if a < b then Ordering.lt
    else if b < a then Ordering.gt
    else cmpVersions as bs

/-! ### Update decision (`main`, main.rs lines 37-65) -/

/-- Embeds the computation of the `install_needed` flag in `main`
(main.rs lines 37-60).  `some b` is the computed flag; `none` means the
process aborts before the flag is decided (the capture panic inside
`fetch_installed_version`, or `Version::from(..).unwrap()` on an
unparsable version, line 49-50).  The flag starts at `true` and is
reassigned only when `fetch_installed_version` returned `Ok`: `Lt`
gives `true`, `Eq` and `Gt` give `false` (lines 53-58). -/
def install_needed (fetchRes : FetchOutcome) (latest : String) : Option Bool :=
  match fetchRes with
  | FetchOutcome.err _ => some true
  | FetchOutcome.panicked => none
  | FetchOutcome.ok installed =>
    match parseVersion installed, parseVersion latest with
    | some a, some b =>
      some (match cmpVersions a b with
            | Ordering.lt => true
            | Ordering.eq => false
            | Ordering.gt => false)
    | _, _ => none

/-- What `main` does after the decision (main.rs lines 62-65):
`install` is invoked exactly when the flag is `true`. -/
inductive MainStep where
  | invoked
  | skipped
  | aborted
deriving DecidableEq

/-- Whether `main` reaches the `install` call (main.rs lines 62-65),
given the outcome of reading the installed version and the latest
version string. -/
def mainInstallStep (fetchRes : FetchOutcome) (latest : String) : MainStep :=
  match install_needed fetchRes latest with
  | none => MainStep.aborted
  | some true => MainStep.invoked
  | some false => MainStep.skipped

/-! ### Installer (`install`, main.rs lines 112-167) -/

/-- The environment of an `install` run: the fresh name the tempfile
builder picks for the scratch directory, the outcome of each fallible
external effect (`none` = success, `some e` = failure with I/O error
description `e`), and the contents of the downloaded zip archive as
paths relative to the extraction directory.  Every `?` of the Rust
function has a corresponding field, in source order. -/
structure InstallEnv where
  /-- The unique path `Builder::new().tempdir()` creates (line 118). -/
  tmp : Path
  /-- Failure of `tempdir()` itself (line 120). -/
  tempdirErr : Option String
  /-- Failure of `reqwest::blocking::get` (line 125). -/
  getErr : Option String
  /-- Failure of `File::create` (line 131). -/
  createErr : Option String
  /-- Failure of `response.copy_to` (line 132). -/
  copyErr : Option String
  /-- Failure of `File::open` (line 137). -/
  openErr : Option String
  /-- Failure of `archive.extract` (line 139). -/
  extractErr : Option String
  /-- Injected failure of `fs::remove_dir_all` per target (line 153). -/
  removeErr : String → Option String
  /-- Injected failure of `fs::rename` per target (line 157), for
  failures beyond the ones the model derives from the state itself. -/
  renameErr : String → Option String
  /-- Failure of `tempdir.close()` (line 165). -/
  closeErr : Option String
  /-- Top-level contents of the downloaded zip archive. -/
  archive : List (Path × NodeKind)

/-- One observable effect of an `install` run, in execution order. -/
inductive Op where
  /-- The scratch directory was created (line 118). -/
  | mkTempDir (p : Path)
  /-- A blocking HTTP GET for `url` was issued (line 125). -/
  | request (url : String)
  /-- `File::create` was called for `p` (line 131). -/
  | createFileOp (p : Path)
  /-- The archive was extracted into `p` (line 139). -/
  | extractOp (p : Path)
  /-- `fs::remove_dir_all` was called on `p` (line 153). -/
  | removeOp (p : Path)
  /-- `fs::rename` was called from `src` to `dst` (line 157). -/
  | renameOp (src dst : Path)
  /-- The scratch directory was removed, by `close()` or by the
  `TempDir` drop on an early return (lines 163-165). -/
  | removedScratch (p : Path)
deriving DecidableEq

/-- The result value of `install`: `Ok(())` or an anyhow error whose
payload is the propagated error description. -/
inductive InstallRes where
  | ok
  | err (e : String)
deriving DecidableEq

/-- The outcome of an `install` run: its result value, the final
filesystem, and the trace of effects performed. -/
structure InstallRun where
  result : InstallRes
  fs : FS
  ops : List Op
deriving DecidableEq

/-- The bail message of the precondition check (main.rs line 114);
the spec names this exit `InstallError::TargetMissing`. -/
def targetMissingMsg : String := "Unable to install! Addons path does not exist!"

/-- Error of a `rename` whose source does not exist (POSIX `ENOENT`). -/
def renameSrcMissingMsg : String := "rename failed: source does not exist"

/-- Error of a `rename` of a directory onto a still-existing
destination (POSIX `ENOTDIR`/`ENOTEMPTY`). -/
def renameDstOccupiedMsg : String := "rename failed: destination already exists"

/-- The hardcoded list of directories the swap loop replaces
(main.rs lines 143-147; the `TODO: Don't hardcode zip dirs` comment). -/
def targets : List String := ["ElvUI", "ElvUI_Options", "ElvUI_Libraries"]

/-- The download URL built at main.rs line 126. -/
def downloadUrl (version : String) : String :=
  "https://www.tukui.org/downloads/elvui-" ++ version ++ ".zip"

/-- An error return after the scratch directory exists: the `TempDir`
value is dropped while the error propagates, which removes the scratch
subtree (the guaranteed-release behaviour of the tempfile crate;
a failure of that removal is ignored by `Drop`). -/
def dropScratch (tmp : Path) (fs : FS) (ops : List Op) (e : String) : InstallRun :=
  { result := InstallRes.err e
    fs := removeSubtree fs tmp
    ops := ops ++ [Op.removedScratch tmp] }

/-- The `fs::rename(extracted_path.join(&target), &target_path)?` call
(main.rs lines 157-160).  The call fails when the source is missing or
the destination still exists (the reachable deterministic POSIX
failures for the directory sources this loop moves), or when the
environment injects an external failure such as a permission error;
otherwise the subtree moves. -/
def renameCall (env : InstallEnv) (fs : FS) (src dst : Path) (t : String)
    (ops0 : List Op) : FS × Option String × List Op :=
  if existsPath fs src = false then
    (fs, some renameSrcMissingMsg, ops0 ++ [Op.renameOp src dst])
  else if existsPath fs dst then
    (fs, some renameDstOccupiedMsg, ops0 ++ [Op.renameOp src dst])
  else
    match env.renameErr t with
    | some e => (fs, some e, ops0 ++ [Op.renameOp src dst])
    | none => (moveSubtree fs src dst, none, ops0 ++ [Op.renameOp src dst])

/-- One iteration of the swap loop (main.rs lines 148-161): remove the
destination if it is a directory (`if target_path.is_dir()`), then
rename the extracted source onto it. -/
def swapStep (env : InstallEnv) (root ext : Path) (fs : FS) (t : String) :
    FS × Option String × List Op :=
  let dst := root ++ [t]
  let src := ext ++ [t]
  if isDir fs dst then
    match env.removeErr t with
    | some e => (fs, some e, [Op.removeOp dst])
    | none => renameCall env (removeSubtree fs dst) src dst t [Op.removeOp dst]
  else
    renameCall env fs src dst t []

/-- The swap loop over the target list (main.rs lines 148-161); a `?`
failure in an iteration stops the loop and propagates the error. -/
def swapLoop (env : InstallEnv) (root ext : Path) :
    List String → FS → FS × Option String × List Op
  | [], fs => (fs, none, [])
  | t :: ts, fs =>
    match swapStep env root ext fs t with
    | (fs1, some e, ops1) => (fs1, some e, ops1)
    | (fs1, none, ops1) =>
      match swapLoop env root ext ts fs1 with
      | (fs2, r, ops2) => (fs2, r, ops1 ++ ops2)

/-- Embeds `install` (main.rs lines 112-167): precondition check on the
addons path, scratch directory creation, download, extraction, the
per-target swap loop, and scratch cleanup (`close()` on success, the
`TempDir` drop on every error return after creation).
`zip::ZipArchive::new(&file).unwrap()` (line 138) panics on a corrupt
archive instead of returning; that aborting path never returns from
`install` and is not a `Result` path of this model. -/
def install (env : InstallEnv) (addonsPath : Path) (version : String) (fs : FS) :
    InstallRun :=
  if isDir fs addonsPath then
    match env.tempdirErr with
    | some e => { result := InstallRes.err e, fs := fs, ops := [] }
    | none =>
      let tmp := env.tmp
      let fs1 : FS := (tmp, NodeKind.dir) :: fs
      let ops1 : List Op := [Op.mkTempDir tmp, Op.request (downloadUrl version)]
      match env.getErr with
      | some e => dropScratch tmp fs1 ops1 e
      | none =>
        let filename := tmp ++ ["elvui.zip"]
        match env.createErr with
        | some e => dropScratch tmp fs1 ops1 e
        | none =>
          let fs2 : FS := (filename, NodeKind.file) :: fs1
          let ops2 : List Op := ops1 ++ [Op.createFileOp filename]
          match env.copyErr with
          | some e => dropScratch tmp fs2 ops2 e
          | none =>
            let ext := tmp ++ ["elvui"]
            match env.openErr with
            | some e => dropScratch tmp fs2 ops2 e
            | none =>
              match env.extractErr with
              | some e => dropScratch tmp fs2 ops2 e
              | none =>
                let fs3 : FS :=
                  fs2 ++ (ext, NodeKind.dir) ::
                    env.archive.map (fun a => (ext ++ a.1, a.2))
                let ops3 : List Op := ops2 ++ [Op.extractOp ext]
                match swapLoop env addonsPath ext targets fs3 with
                | (fs4, some e, lops) => dropScratch tmp fs4 (ops3 ++ lops) e
                | (fs4, none, lops) =>
                  match env.closeErr with
                  | some e =>
                    { result := InstallRes.err e, fs := fs4, ops := ops3 ++ lops }
                  | none =>
                    { result := InstallRes.ok
                      fs := removeSubtree fs4 tmp
                      ops := ops3 ++ lops ++ [Op.removedScratch tmp] }
  else
    { result := InstallRes.err targetMissingMsg, fs := fs, ops := [] }

/-- The destinations of the `rename` calls in a trace: the directories
the run (re)placed or tried to place. -/
def renameCalls (ops : List Op) : List Path :=
  ops.filterMap (fun op =>
    match op with
    | Op.renameOp _ dst => some dst
    | _ => none)

/-- The swap-loop trace predicted from a starting filesystem: for each
target in order, a removal when the destination is a directory there,
then the rename. -/
def swapTrace (root ext : Path) (d : String → Bool) : List String → List Op
  | [] => []
  | t :: ts =>
    (if d t then [Op.removeOp (root ++ [t])] else []) ++
      (Op.renameOp (ext ++ [t]) (root ++ [t]) :: swapTrace root ext d ts)

/-- No entry of `fs` lies at or below `tmp`. -/
def freshFor (tmp : Path) (fs : FS) : Bool :=
  fs.all (fun e => !(pfx tmp e.1))

theorem freshFor_iff (tmp : Path) (fs : FS) :
    freshFor tmp fs = true ↔ ∀ e ∈ fs, pfx tmp e.1 = false := by
  rw [freshFor, List.all_eq_true]
  constructor
  · intro h e he
    simpa using h e he
  · intro h e he
    simpa using h e he

theorem freshFor_removeSubtree (tmp : Path) (fs : FS) :
    freshFor tmp (removeSubtree fs tmp) = true := by
  rw [freshFor_iff]
  intro e he
  simp only [removeSubtree, List.mem_filter] at he
  simpa using he.2

/-- Modelled from the spec: the `ReleaseMetadata` record of spec
section 3 — latest version, download URL and the ordered list of
directory names the release occupies.  The code has no such record:
`fetch_latest_version` (main.rs lines 92-110) yields only the version
string, and the directory list the installer uses is the hardcoded
`targets`.  This definition exists to state the spec's claim that the
installer follows `metadata.targetDirectories`. -/
structure ReleaseMetadata where
  latestVersion : String
  downloadURL : String
  targetDirectories : List String

/-! ### Concrete scenario used by the counterexamples and witnesses -/

/-- A concrete addons root. -/
def root0 : Path := ["Addons"]

/-- A concrete fresh scratch path. -/
def tmp0 : Path := ["tmp", "elvui-manager-x1"]

/-- A concrete archive: the three ElvUI directories with one file each. -/
def archive0 : List (Path × NodeKind) :=
  [ (["ElvUI"], NodeKind.dir),
    (["ElvUI", "core.lua"], NodeKind.file),
    (["ElvUI_Options"], NodeKind.dir),
    (["ElvUI_Options", "opt.lua"], NodeKind.file),
    (["ElvUI_Libraries"], NodeKind.dir),
    (["ElvUI_Libraries", "lib.lua"], NodeKind.file) ]

/-- A concrete starting filesystem: the addons root with stale copies
of the three target directories. -/
def fs0 : FS :=
  [ (["Addons"], NodeKind.dir),
    (["Addons", "ElvUI"], NodeKind.dir),
    (["Addons", "ElvUI", "old.lua"], NodeKind.file),
    (["Addons", "ElvUI_Options"], NodeKind.dir),
    (["Addons", "ElvUI_Options", "oldopt.lua"], NodeKind.file),
    (["Addons", "ElvUI_Libraries"], NodeKind.dir) ]

/-- An environment in which every external effect succeeds. -/
def envOk : InstallEnv :=
  { tmp := tmp0
    tempdirErr := none
    getErr := none
    createErr := none
    copyErr := none
    openErr := none
    extractErr := none
    removeErr := fun _ => none
    renameErr := fun _ => none
    closeErr := none
    archive := archive0 }

/-- Everything succeeds except `remove_dir_all` on the second target,
which fails with a permission error. -/
def envRemoveFail2 : InstallEnv :=
  { envOk with
    removeErr := fun t => if t == "ElvUI_Options" then some "permission denied" else none }

/-- Everything succeeds except the download request, which fails with
the same underlying I/O error description. -/
def envDownloadFail : InstallEnv :=
  { envOk with getErr := some "permission denied" }

/-- Release metadata as the spec describes it, declaring a directory
list that differs from the installer's hardcoded one. -/
def md0 : ReleaseMetadata :=
  { latestVersion := "12.66"
    downloadURL := downloadUrl "12.66"
    targetDirectories := ["Foo"] }

/-- A manifest whose text contains the line of claim C7 among other
content. -/
def manifestSample : String :=
  "## Interface: 110105\n## Title: ElvUI\n## Version: 12.66|enUS\n## Author: Elv\n"

/-! ### Success-path analysis of the swap loop -/

theorem swapTrace_congr (root ext : Path) {d1 d2 : String → Bool} :
    ∀ ts : List String, (∀ t ∈ ts, d1 t = d2 t) →
      swapTrace root ext d1 ts = swapTrace root ext d2 ts := by
  intro ts
  induction ts with
  | nil => intro _; rfl
  | cons t ts ih =>
    intro h
    have h1 : d1 t = d2 t := h t (List.mem_cons_self t ts)
    have h2 := ih (fun x hx => h x (List.mem_cons_of_mem t hx))
    simp [swapTrace, h1, h2]

/-- A swap-loop iteration in which nothing fails: the destination is
removed when it was a directory and the extracted source is moved onto
it. -/
theorem swapStep_ok (env : InstallEnv) (root ext : Path) (fs : FS) (t : String)
    (hrm : env.removeErr t = none) (hrn : env.renameErr t = none)
    (hsrc : isDir fs (ext ++ [t]) = true)
    (hdst : isDir fs (root ++ [t]) = true ∨ existsPath fs (root ++ [t]) = false)
    (hds : pfx (root ++ [t]) (ext ++ [t]) = false) :
    swapStep env root ext fs t =
      (moveSubtree
         (if isDir fs (root ++ [t]) then removeSubtree fs (root ++ [t]) else fs)
         (ext ++ [t]) (root ++ [t]),
       none,
       (if isDir fs (root ++ [t]) then [Op.removeOp (root ++ [t])] else []) ++
         [Op.renameOp (ext ++ [t]) (root ++ [t])]) := by
  cases hd : isDir fs (root ++ [t]) with
  | true =>
    have h1 : existsPath (removeSubtree fs (root ++ [t])) (ext ++ [t]) = true := by
      rw [existsPath_removeSubtree_of fs hds]
      exact existsPath_of_isDir hsrc
    have h2 : existsPath (removeSubtree fs (root ++ [t])) (root ++ [t]) = false :=
      existsPath_removeSubtree_under fs (pfx_refl _)
    simp [swapStep, hd, hrm, renameCall, h1, h2, hrn]
  | false =>
    have h2 : existsPath fs (root ++ [t]) = false := by
      rcases hdst with h | h
      · rw [hd] at h; cases h
      · exact h
    simp [swapStep, hd, renameCall, existsPath_of_isDir hsrc, h2, hrn]

/-- When the scratch path is fresh and outside the addons root, nothing
at or below the addons root lies under the scratch path. -/
theorem not_under_tmp {tmp root : Path} {fs : FS}
    (hfresh : freshFor tmp fs = true) (hout : pfx root tmp = false)
    (hroot : isDir fs root = true) :
    ∀ x : Path, pfx tmp (root ++ x) = false := by
  intro x
  cases h : pfx tmp (root ++ x) with
  | false => rfl
  | true =>
    exfalso
    rcases pfx_append_cases x h with h1 | h1
    · have hmem : (root, NodeKind.dir) ∈ fs := (isDir_iff fs root).mp hroot
      have h2 := (freshFor_iff tmp fs).mp hfresh (root, NodeKind.dir) hmem
      simp only at h2
      rw [h1] at h2; cases h2
    · rw [h1] at hout; cases hout

/-- Membership in the filesystem after scratch setup and extraction
(the `fs3` of a run that reached the swap loop) agrees with the
starting filesystem away from the scratch subtree. -/
theorem mem_scratch_ext {tmp p : Path} {k : NodeKind} (fs : FS)
    (arch : List (Path × NodeKind)) (hp : pfx tmp p = false) :
    ((p, k) ∈ ((tmp ++ ["elvui.zip"], NodeKind.file) :: (tmp, NodeKind.dir) :: fs) ++
        (tmp ++ ["elvui"], NodeKind.dir) ::
          arch.map (fun a => (tmp ++ ["elvui"] ++ a.1, a.2))) ↔ (p, k) ∈ fs := by
  simp only [List.cons_append, List.mem_cons, List.mem_append, List.mem_map]
  constructor
  · rintro (h | h | h | h | ⟨a, ha, h⟩)
    · exfalso; rw [Prod.mk.injEq] at h
      rw [h.1] at hp; simp [pfx_append] at hp
    · exfalso; rw [Prod.mk.injEq] at h
      rw [h.1] at hp; simp [pfx_refl] at hp
    · exact h
    · exfalso; rw [Prod.mk.injEq] at h
      rw [h.1] at hp; simp [pfx_append] at hp
    · exfalso; rw [Prod.mk.injEq] at h
      rw [← h.1, List.append_assoc] at hp; simp [pfx_append] at hp
  · intro h
    exact Or.inr (Or.inr (Or.inl h))

theorem isDir_scratch_ext {tmp p : Path} (fs : FS)
    (arch : List (Path × NodeKind)) (hp : pfx tmp p = false) :
    isDir (((tmp ++ ["elvui.zip"], NodeKind.file) :: (tmp, NodeKind.dir) :: fs) ++
        (tmp ++ ["elvui"], NodeKind.dir) ::
          arch.map (fun a => (tmp ++ ["elvui"] ++ a.1, a.2))) p = isDir fs p :=
  bool_ext (by rw [isDir_iff, isDir_iff]; exact mem_scratch_ext fs arch hp)

theorem existsPath_scratch_ext {tmp p : Path} (fs : FS)
    (arch : List (Path × NodeKind)) (hp : pfx tmp p = false) :
    existsPath (((tmp ++ ["elvui.zip"], NodeKind.file) :: (tmp, NodeKind.dir) :: fs) ++
        (tmp ++ ["elvui"], NodeKind.dir) ::
          arch.map (fun a => (tmp ++ ["elvui"] ++ a.1, a.2))) p = existsPath fs p := by
  apply bool_ext
  rw [existsPath_iff, existsPath_iff]
  exact ⟨fun ⟨k, hk⟩ => ⟨k, (mem_scratch_ext fs arch hp).mp hk⟩,
         fun ⟨k, hk⟩ => ⟨k, (mem_scratch_ext fs arch hp).mpr hk⟩⟩

/-- After extraction, each top-level directory of the archive is a
directory below the extraction path. -/
theorem isDir_scratch_ext_src {tmp : Path} (fs : FS)
    (arch : List (Path × NodeKind)) {t : String}
    (ht : ([t], NodeKind.dir) ∈ arch) :
    isDir (((tmp ++ ["elvui.zip"], NodeKind.file) :: (tmp, NodeKind.dir) :: fs) ++
        (tmp ++ ["elvui"], NodeKind.dir) ::
          arch.map (fun a => (tmp ++ ["elvui"] ++ a.1, a.2)))
      (tmp ++ ["elvui"] ++ [t]) = true := by
  rw [isDir_iff]
  simp only [List.cons_append, List.mem_cons, List.mem_append, List.mem_map]
  exact Or.inr (Or.inr (Or.inr (Or.inr ⟨([t], NodeKind.dir), ht, rfl⟩)))

/-- The swap loop on a duplicate-free target list, starting from a
state in which every source is an extracted directory, every
destination is a directory or absent, and sources and destinations live
in disjoint regions: the loop succeeds, its trace is exactly the
predicted per-target removal/rename sequence, every destination is a
directory afterwards, and paths outside all source and destination
subtrees are untouched. -/
theorem swapLoop_ok (env : InstallEnv) (root ext : Path) :
    ∀ (ts : List String) (fs : FS),
    ts.Nodup →
    (∀ t ∈ ts, env.removeErr t = none) →
    (∀ t ∈ ts, env.renameErr t = none) →
    (∀ t ∈ ts, isDir fs (ext ++ [t]) = true) →
    (∀ t ∈ ts, isDir fs (root ++ [t]) = true ∨ existsPath fs (root ++ [t]) = false) →
    (∀ t ∈ ts, ∀ t' ∈ ts, pfx (root ++ [t]) (ext ++ [t']) = false) →
    (∀ t ∈ ts, ∀ t' ∈ ts, pfx (ext ++ [t]) (root ++ [t']) = false) →
    (swapLoop env root ext ts fs).2.1 = none ∧
    (swapLoop env root ext ts fs).2.2 =
      swapTrace root ext (fun t => isDir fs (root ++ [t])) ts ∧
    (∀ t ∈ ts, isDir (swapLoop env root ext ts fs).1 (root ++ [t]) = true) ∧
    (∀ p : Path,
      (∀ t ∈ ts, pfx (root ++ [t]) p = false ∧ pfx (ext ++ [t]) p = false) →
      isDir (swapLoop env root ext ts fs).1 p = isDir fs p ∧
      existsPath (swapLoop env root ext ts fs).1 p = existsPath fs p) := by
  intro ts
  induction ts with
  | nil =>
    intro fs _ _ _ _ _ _ _
    refine ⟨rfl, rfl, ?_, fun p _ => ⟨rfl, rfl⟩⟩
    intro t ht
    cases ht
  | cons t ts ih =>
    intro fs hnd hrm hrn hsrc hdst hre her
    have htmem : t ∈ t :: ts := List.mem_cons_self t ts
    have hnotin : t ∉ ts := (List.nodup_cons.mp hnd).1
    have hnd' : ts.Nodup := (List.nodup_cons.mp hnd).2
    have hne : ∀ t' ∈ ts, t' ≠ t := fun t' ht' heq => hnotin (heq ▸ ht')
    have hstep := swapStep_ok env root ext fs t (hrm t htmem) (hrn t htmem)
      (hsrc t htmem) (hdst t htmem) (hre t htmem t htmem)
    set fs' := moveSubtree
      (if isDir fs (root ++ [t]) then removeSubtree fs (root ++ [t]) else fs)
      (ext ++ [t]) (root ++ [t]) with hfs'
    -- the step changes nothing away from the source and destination of `t`
    have hframe1 : ∀ p : Path, pfx (root ++ [t]) p = false →
        pfx (ext ++ [t]) p = false →
        isDir fs' p = isDir fs p ∧ existsPath fs' p = existsPath fs p := by
      intro p h1 h2
      rw [hfs']
      constructor
      · rw [isDir_moveSubtree_of _ h2 h1]
        cases hd : isDir fs (root ++ [t]) <;>
          simp [hd, isDir_removeSubtree_of fs h1]
      · rw [existsPath_moveSubtree_of _ h2 h1]
        cases hd : isDir fs (root ++ [t]) <;>
          simp [hd, existsPath_removeSubtree_of fs h1]
    -- the destination of `t` is a directory after the step
    have hfsdir : isDir fs' (root ++ [t]) = true := by
      rw [hfs']
      apply isDir_moveSubtree_self
      cases hd : isDir fs (root ++ [t]) with
      | true =>
        simp only [hd, if_true]
        rw [isDir_removeSubtree_of fs (hre t htmem t htmem)]
        exact hsrc t htmem
      | false =>
        simp only [hd, Bool.false_eq_true, if_false]
        exact hsrc t htmem
    -- invariants carry over to the tail
    have hsrc' : ∀ t' ∈ ts, isDir fs' (ext ++ [t']) = true := by
      intro t' ht'
      have hp1 : pfx (root ++ [t]) (ext ++ [t']) = false :=
        hre t htmem t' (List.mem_cons_of_mem t ht')
      have hp2 : pfx (ext ++ [t]) (ext ++ [t']) = false :=
        pfx_snoc_ne ext ((hne t' ht').symm)
      rw [(hframe1 _ hp1 hp2).1]
      exact hsrc t' (List.mem_cons_of_mem t ht')
    have hdst'eq : ∀ t' ∈ ts,
        isDir fs' (root ++ [t']) = isDir fs (root ++ [t']) ∧
        existsPath fs' (root ++ [t']) = existsPath fs (root ++ [t']) := by
      intro t' ht'
      have hp1 : pfx (root ++ [t]) (root ++ [t']) = false :=
        pfx_snoc_ne root ((hne t' ht').symm)
      have hp2 : pfx (ext ++ [t]) (root ++ [t']) = false :=
        her t htmem t' (List.mem_cons_of_mem t ht')
      exact hframe1 _ hp1 hp2
    have hrec := ih fs' hnd'
      (fun t' ht' => hrm t' (List.mem_cons_of_mem t ht'))
      (fun t' ht' => hrn t' (List.mem_cons_of_mem t ht'))
      hsrc'
      (fun t' ht' => by
        rcases hdst t' (List.mem_cons_of_mem t ht') with h | h
        · exact Or.inl (((hdst'eq t' ht').1).trans h)
        · exact Or.inr (((hdst'eq t' ht').2).trans h))
      (fun a ha b hb =>
        hre a (List.mem_cons_of_mem t ha) b (List.mem_cons_of_mem t hb))
      (fun a ha b hb =>
        her a (List.mem_cons_of_mem t ha) b (List.mem_cons_of_mem t hb))
    rcases hval : swapLoop env root ext ts fs' with ⟨fs2, r2, ops2⟩
    rw [hval] at hrec
    obtain ⟨hrec1, hrec2, hrec3, hrec4⟩ := hrec
    have hloop : swapLoop env root ext (t :: ts) fs =
        (fs2, r2,
          ((if isDir fs (root ++ [t]) then [Op.removeOp (root ++ [t])] else []) ++
            [Op.renameOp (ext ++ [t]) (root ++ [t])]) ++ ops2) := by
      simp only [swapLoop, hstep, hval]
    rw [hloop]
    refine ⟨hrec1, ?_, ?_, ?_⟩
    · -- the trace
      have hcg : swapTrace root ext (fun u => isDir fs' (root ++ [u])) ts =
          swapTrace root ext (fun u => isDir fs (root ++ [u])) ts :=
        swapTrace_congr root ext ts (fun u hu => (hdst'eq u hu).1)
      have hrec2' : ops2 = swapTrace root ext (fun u => isDir fs' (root ++ [u])) ts :=
        hrec2
      show ((if isDir fs (root ++ [t]) then [Op.removeOp (root ++ [t])] else []) ++
          [Op.renameOp (ext ++ [t]) (root ++ [t])]) ++ ops2 =
        swapTrace root ext (fun u => isDir fs (root ++ [u])) (t :: ts)
      rw [swapTrace, hrec2', hcg]
      simp [List.append_assoc]
    · -- all destinations are directories afterwards
      intro u hu
      rcases List.mem_cons.mp hu with hE | hu'
      · subst hE
        have hfacts : ∀ t' ∈ ts,
            pfx (root ++ [t']) (root ++ [u]) = false ∧
            pfx (ext ++ [t']) (root ++ [u]) = false := by
          intro t' ht'
          exact ⟨pfx_snoc_ne root (hne t' ht'),
                 her t' (List.mem_cons_of_mem u ht') u htmem⟩
        have h5 : isDir fs2 (root ++ [u]) = isDir fs' (root ++ [u]) :=
          (hrec4 (root ++ [u]) hfacts).1
        show isDir fs2 (root ++ [u]) = true
        rw [h5]
        exact hfsdir
      · exact hrec3 u hu'
    · -- the frame
      intro p hp
      have hT := hp t htmem
      have h1 := hframe1 p hT.1 hT.2
      have h2 := hrec4 p (fun t' ht' => hp t' (List.mem_cons_of_mem t ht'))
      exact ⟨h2.1.trans h1.1, h2.2.trans h1.2⟩

/-! ### Claim theorems -/

/-- C4: when the addons root is not an existing directory, `install`
fails immediately with the distinct target-missing error (the bail at
main.rs line 114, which the spec names `InstallError::TargetMissing`),
the filesystem is unchanged (nothing created or removed), and the
effect trace is empty — in particular no download request is issued. -/
theorem target_missing_before_effects (env : InstallEnv) (addonsPath : Path)
    (version : String) (fs : FS) (h : isDir fs addonsPath = false) :
    install env addonsPath version fs =
      { result := InstallRes.err targetMissingMsg, fs := fs, ops := [] } := by
  simp [install, h]

theorem target_missing_before_effects_witness :
    isDir ([] : FS) root0 = false ∧
    install envOk root0 "12.66" [] =
      { result := InstallRes.err targetMissingMsg, fs := ([] : FS), ops := [] } :=
  ⟨by decide, target_missing_before_effects envOk root0 "12.66" [] (by decide)⟩

/-- C5: for an installed version `v` and latest version `w` (both
parsable dotted-numeric strings), the update decision of `main`
(main.rs lines 53-58) is `true` exactly when the comparison is `Less`,
and on `Equal` or `Greater` it is `false` and `install` is not
invoked. -/
theorem update_decision_iff_less (v w : String) (a b : List Nat)
    (ha : parseVersion v = some a) (hb : parseVersion w = some b) :
    (install_needed (FetchOutcome.ok v) w = some true ↔
      cmpVersions a b = Ordering.lt) ∧
    (cmpVersions a b = Ordering.eq →
      install_needed (FetchOutcome.ok v) w = some false ∧
      mainInstallStep (FetchOutcome.ok v) w = MainStep.skipped) ∧
    (cmpVersions a b = Ordering.gt →
      install_needed (FetchOutcome.ok v) w = some false ∧
      mainInstallStep (FetchOutcome.ok v) w = MainStep.skipped) := by
  simp only [install_needed, mainInstallStep, ha, hb]
  rcases hc : cmpVersions a b <;> simp [hc]

theorem update_decision_iff_less_witness :
    parseVersion "12.65" = some [12, 65] ∧
    parseVersion "12.66" = some [12, 66] ∧
    ((install_needed (FetchOutcome.ok "12.65") "12.66" = some true ↔
        cmpVersions [12, 65] [12, 66] = Ordering.lt) ∧
      (cmpVersions [12, 65] [12, 66] = Ordering.eq →
        install_needed (FetchOutcome.ok "12.65") "12.66" = some false ∧
        mainInstallStep (FetchOutcome.ok "12.65") "12.66" = MainStep.skipped) ∧
      (cmpVersions [12, 65] [12, 66] = Ordering.gt →
        install_needed (FetchOutcome.ok "12.65") "12.66" = some false ∧
        mainInstallStep (FetchOutcome.ok "12.65") "12.66" = MainStep.skipped)) :=
  ⟨by decide, by decide,
    update_decision_iff_less "12.65" "12.66" [12, 65] [12, 66] (by decide) (by decide)⟩

/-- C6: when reading the installed version fails (in particular when
the manifest file is absent), the `install_needed` flag keeps its
initial value `true` (main.rs lines 37, 45) and `main` proceeds to
invoke `install` for any latest version. -/
theorem missing_manifest_always_installs (addonsPath : Path) (e latest : String) :
    install_needed (fetch_installed_version addonsPath (Except.error e)) latest =
      some true ∧
    mainInstallStep (fetch_installed_version addonsPath (Except.error e)) latest =
      MainStep.invoked := by
  simp [fetch_installed_version, install_needed, mainInstallStep]

/-- C7 counterexample: on a manifest containing the line
`## Version: 12.66|enUS`, `fetch_installed_version` does not return
`"12.66"`: the regex class `[|\d\.]+` (main.rs line 86) also matches
the vertical bar, so the capture is `"12.66|"`. -/
theorem manifest_capture_not_bar_free :
    fetch_installed_version root0 (Except.ok manifestSample) ≠
      FetchOutcome.ok "12.66" := by decide

/-- C7 amended: on that manifest the returned capture is exactly
`"12.66|"` — the maximal run of digits, dots and vertical bars after
`Version: `, so the bar before the locale suffix is included and the
locale letters are excluded. -/
theorem manifest_capture_includes_bar :
    fetch_installed_version root0 (Except.ok manifestSample) =
      FetchOutcome.ok "12.66|" := by decide

/-- C8: when the manifest is readable but no `Version: ` line with at
least one `[|0-9.]` character follows, `fetch_installed_version` hits
the `.unwrap()` on the failed capture (main.rs line 87) and the process
aborts with a surfaced fatal error; the outcome is not the recoverable
"not installed" treatment and `install` is never reached. -/
theorem missing_version_line_panics (addonsPath : Path) (content latest : String)
    (h : findVersionCapture content.data = none) :
    fetch_installed_version addonsPath (Except.ok content) = FetchOutcome.panicked ∧
    mainInstallStep (fetch_installed_version addonsPath (Except.ok content)) latest =
      MainStep.aborted := by
  simp [fetch_installed_version, h, mainInstallStep, install_needed]

theorem missing_version_line_panics_witness :
    findVersionCapture ("## Title: ElvUI\n".data) = none ∧
    (fetch_installed_version root0 (Except.ok "## Title: ElvUI\n") =
        FetchOutcome.panicked ∧
      mainInstallStep (fetch_installed_version root0 (Except.ok "## Title: ElvUI\n"))
          "12.66" = MainStep.aborted) :=
  ⟨by decide, missing_version_line_panics root0 "## Title: ElvUI\n" "12.66" (by decide)⟩

/-- C9 counterexample: an unexpected I/O error (permission denial) on
the manifest read is not kept apart from the missing-file case: it
becomes an `Err` like any other read failure and `main` proceeds to
invoke `install` exactly as if the add-on were absent, contradicting
the claimed distinction. -/
theorem permission_error_installs_anyway :
    fetch_installed_version root0 (Except.error "permission denied") =
      FetchOutcome.err
        "could not read file Addons/ElvUI/ElvUI_Mainline.toc: permission denied" ∧
    mainInstallStep (fetch_installed_version root0 (Except.error "permission denied"))
        "12.66" = MainStep.invoked := by decide

/-- C9 amended: every failure of the manifest read — missing file,
permission denial, disk error — is treated uniformly: the error is
wrapped with the same context, `install_needed` keeps its initial
`true`, and installation proceeds; no failure class is distinguished. -/
theorem read_errors_treated_uniformly (addonsPath : Path) (e1 e2 latest : String) :
    mainInstallStep (fetch_installed_version addonsPath (Except.error e1)) latest =
      MainStep.invoked ∧
    mainInstallStep (fetch_installed_version addonsPath (Except.error e1)) latest =
      mainInstallStep (fetch_installed_version addonsPath (Except.error e2)) latest := by
  simp [fetch_installed_version, install_needed, mainInstallStep]

/-- C2 counterexample: when the swap loop fails on the second of the
three targets (permission error on `remove_dir_all`), `install` returns
the bare propagated I/O error — the very same error value a failed
download produces — so the result does not identify which directories
completed and which remain; there is no
`InstallError::PartialInstall` with that information. -/
theorem swap_failure_error_undifferentiated :
    (install envRemoveFail2 root0 "12.66" fs0).result =
      InstallRes.err "permission denied" ∧
    (install envDownloadFail root0 "12.66" fs0).result =
      (install envRemoveFail2 root0 "12.66" fs0).result :=
  ⟨rfl, rfl⟩

/-- C2 amended: when the swap loop fails partway (here:
`remove_dir_all` on the second target fails with a permission error),
the targets already swapped remain updated, the targets at and after
the failure point remain in their prior state, the scratch directory is
still cleaned up, and `install` returns the propagated underlying
error, carrying no record of completed versus remaining directories. -/
theorem mid_swap_failure_partial_state :
    (install envRemoveFail2 root0 "12.66" fs0).result =
      InstallRes.err "permission denied" ∧
    (install envRemoveFail2 root0 "12.66" fs0).fs =
      [ (["Addons"], NodeKind.dir),
        (["Addons", "ElvUI_Options"], NodeKind.dir),
        (["Addons", "ElvUI_Options", "oldopt.lua"], NodeKind.file),
        (["Addons", "ElvUI_Libraries"], NodeKind.dir),
        (["Addons", "ElvUI"], NodeKind.dir),
        (["Addons", "ElvUI", "core.lua"], NodeKind.file) ] ∧
    (install envRemoveFail2 root0 "12.66" fs0).ops =
      [ Op.mkTempDir tmp0, Op.request (downloadUrl "12.66"),
        Op.createFileOp (tmp0 ++ ["elvui.zip"]), Op.extractOp (tmp0 ++ ["elvui"]),
        Op.removeOp ["Addons", "ElvUI"],
        Op.renameOp (tmp0 ++ ["elvui", "ElvUI"]) ["Addons", "ElvUI"],
        Op.removeOp ["Addons", "ElvUI_Options"],
        Op.removedScratch tmp0 ] :=
  ⟨rfl, rfl, rfl⟩

/-- C1 counterexample: the swap loop replaces the hardcoded directories
`ElvUI`, `ElvUI_Options`, `ElvUI_Libraries` (main.rs lines 143-147)
regardless of the directory list the release metadata declares: with
metadata carrying `targetDirectories = ["Foo"]`, the renamed
destinations of a fully successful run are the three hardcoded paths,
not the metadata's list. -/
theorem install_ignores_metadata_directories :
    renameCalls (install envOk root0 md0.latestVersion fs0).ops =
      [["Addons", "ElvUI"], ["Addons", "ElvUI_Options"], ["Addons", "ElvUI_Libraries"]] ∧
    md0.targetDirectories.map (fun n => root0 ++ [n]) ≠
      [["Addons", "ElvUI"], ["Addons", "ElvUI_Options"], ["Addons", "ElvUI_Libraries"]] :=
  ⟨rfl, by decide⟩

/-- C1 amended: on a fully successful run, `install` processes exactly
the hardcoded directory list `["ElvUI", "ElvUI_Options",
"ElvUI_Libraries"]` (main.rs lines 143-147) in order — for each name it
computes source `extractedPath/name` and destination `addonsRoot/name`,
removes the destination recursively when it is a directory, and renames
the source onto it — independent of any directory list carried by
release metadata; afterwards every one of these destinations is the
freshly moved directory.  The hypotheses state the success scenario: a
valid addons root, no external failure, an archive containing the three
directories, each destination a directory or absent, and a fresh
scratch path outside the addons root. -/
theorem install_replaces_fixed_targets (env : InstallEnv) (root : Path)
    (version : String) (fs : FS)
    (hroot : isDir fs root = true)
    (htd : env.tempdirErr = none) (hget : env.getErr = none)
    (hcreate : env.createErr = none) (hcopy : env.copyErr = none)
    (hopen : env.openErr = none) (hextract : env.extractErr = none)
    (hclose : env.closeErr = none)
    (hrm : ∀ t ∈ targets, env.removeErr t = none)
    (hrn : ∀ t ∈ targets, env.renameErr t = none)
    (harch : ∀ t ∈ targets, ([t], NodeKind.dir) ∈ env.archive)
    (hdst : ∀ t ∈ targets,
      isDir fs (root ++ [t]) = true ∨ existsPath fs (root ++ [t]) = false)
    (hfresh : freshFor env.tmp fs = true)
    (hout : pfx root env.tmp = false) :
    (install env root version fs).result = InstallRes.ok ∧
    (install env root version fs).ops =
      Op.mkTempDir env.tmp :: Op.request (downloadUrl version) ::
        Op.createFileOp (env.tmp ++ ["elvui.zip"]) ::
          Op.extractOp (env.tmp ++ ["elvui"]) ::
            (swapTrace root (env.tmp ++ ["elvui"])
                (fun t => isDir fs (root ++ [t])) targets ++
              [Op.removedScratch env.tmp]) ∧
    (∀ t ∈ targets, isDir (install env root version fs).fs (root ++ [t]) = true) := by
  have hU : ∀ x : Path, pfx env.tmp (root ++ x) = false :=
    not_under_tmp hfresh hout hroot
  have htmproot : pfx env.tmp root = false := by simpa using hU []
  have hre : ∀ t ∈ targets, ∀ t' ∈ targets,
      pfx (root ++ [t]) (env.tmp ++ ["elvui"] ++ [t']) = false := by
    intro t _ t' _
    cases h : pfx (root ++ [t]) (env.tmp ++ ["elvui"] ++ [t']) with
    | false => rfl
    | true =>
      exfalso
      have hr : pfx root (env.tmp ++ ["elvui"] ++ [t']) = true :=
        pfx_trans (pfx_append root [t]) h
      rw [List.append_assoc] at hr
      rcases pfx_append_cases _ hr with h1 | h1
      · rw [h1] at hout; cases hout
      · rw [h1] at htmproot; cases htmproot
  have her : ∀ t ∈ targets, ∀ t' ∈ targets,
      pfx (env.tmp ++ ["elvui"] ++ [t]) (root ++ [t']) = false := by
    intro t _ t' _
    cases h : pfx (env.tmp ++ ["elvui"] ++ [t]) (root ++ [t']) with
    | false => rfl
    | true =>
      exfalso
      have h0 : pfx env.tmp (env.tmp ++ ["elvui"] ++ [t]) = true := by
        rw [List.append_assoc]; exact pfx_append _ _
      have h2 := pfx_trans h0 h
      rw [hU [t']] at h2; cases h2
  have hsw := swapLoop_ok env root (env.tmp ++ ["elvui"]) targets
    (((env.tmp ++ ["elvui.zip"], NodeKind.file) :: (env.tmp, NodeKind.dir) :: fs) ++
      (env.tmp ++ ["elvui"], NodeKind.dir) ::
        env.archive.map (fun a => (env.tmp ++ ["elvui"] ++ a.1, a.2)))
    (by decide)
    hrm hrn
    (fun t ht => isDir_scratch_ext_src fs env.archive (harch t ht))
    (fun t ht => by
      rw [isDir_scratch_ext fs env.archive (hU [t]),
          existsPath_scratch_ext fs env.archive (hU [t])]
      exact hdst t ht)
    hre her
  rcases hval : swapLoop env root (env.tmp ++ ["elvui"]) targets
    (((env.tmp ++ ["elvui.zip"], NodeKind.file) :: (env.tmp, NodeKind.dir) :: fs) ++
      (env.tmp ++ ["elvui"], NodeKind.dir) ::
        env.archive.map (fun a => (env.tmp ++ ["elvui"] ++ a.1, a.2)))
    with ⟨fs4, r4, lops⟩
  rw [hval] at hsw
  obtain ⟨hswE, hswT, hswD, hswF⟩ := hsw
  have hr4 : r4 = none := hswE
  subst hr4
  have hlops : lops = swapTrace root (env.tmp ++ ["elvui"])
      (fun t => isDir
        (((env.tmp ++ ["elvui.zip"], NodeKind.file) :: (env.tmp, NodeKind.dir) :: fs) ++
          (env.tmp ++ ["elvui"], NodeKind.dir) ::
            env.archive.map (fun a => (env.tmp ++ ["elvui"] ++ a.1, a.2)))
        (root ++ [t])) targets := hswT
  have hdee : ∀ t ∈ targets,
      isDir
        (((env.tmp ++ ["elvui.zip"], NodeKind.file) :: (env.tmp, NodeKind.dir) :: fs) ++
          (env.tmp ++ ["elvui"], NodeKind.dir) ::
            env.archive.map (fun a => (env.tmp ++ ["elvui"] ++ a.1, a.2)))
        (root ++ [t]) = isDir fs (root ++ [t]) :=
    fun t _ => isDir_scratch_ext fs env.archive (hU [t])
  have hlops2 : lops = swapTrace root (env.tmp ++ ["elvui"])
      (fun t => isDir fs (root ++ [t])) targets :=
    hlops.trans (swapTrace_congr root (env.tmp ++ ["elvui"]) targets hdee)
  refine ⟨?_, ?_, ?_⟩
  · simp only [install, hroot, htd, hget, hcreate, hcopy, hopen, hextract, hclose,
      hval, if_true]
  · simp only [install, hroot, htd, hget, hcreate, hcopy, hopen, hextract, hclose,
      hval, if_true]
    rw [hlops2]
    simp
  · intro t ht
    simp only [install, hroot, htd, hget, hcreate, hcopy, hopen, hextract, hclose,
      hval, if_true]
    rw [isDir_removeSubtree_of fs4 (hU [t])]
    exact hswD t ht

theorem install_replaces_fixed_targets_witness :
    (install envOk root0 "12.66" fs0).result = InstallRes.ok ∧
    (install envOk root0 "12.66" fs0).ops =
      Op.mkTempDir tmp0 :: Op.request (downloadUrl "12.66") ::
        Op.createFileOp (tmp0 ++ ["elvui.zip"]) ::
          Op.extractOp (tmp0 ++ ["elvui"]) ::
            (swapTrace root0 (tmp0 ++ ["elvui"])
                (fun t => isDir fs0 (root0 ++ [t])) targets ++
              [Op.removedScratch tmp0]) ∧
    (∀ t ∈ targets, isDir (install envOk root0 "12.66" fs0).fs (root0 ++ [t]) = true) :=
  install_replaces_fixed_targets envOk root0 "12.66" fs0
    (by decide) rfl rfl rfl rfl rfl rfl rfl
    (by decide) (by decide) (by decide) (by decide) (by decide) (by decide)

/-- C10: in the swap-loop body, an existing destination is removed only
when it is a directory (`if target_path.is_dir()`, main.rs line 152):
when a non-directory entry occupies `addonsRoot/name`, the step performs
no removal — the trace is the bare attempted `rename`, which fails, and
the filesystem (the occupying file included) is left untouched. -/
theorem file_destination_not_removed (env : InstallEnv) (root ext : Path)
    (fs : FS) (t : String)
    (hex : existsPath fs (root ++ [t]) = true)
    (hnd : isDir fs (root ++ [t]) = false) :
    swapStep env root ext fs t =
      (fs,
       some (if existsPath fs (ext ++ [t]) = false then renameSrcMissingMsg
             else renameDstOccupiedMsg),
       [Op.renameOp (ext ++ [t]) (root ++ [t])]) := by
  simp only [swapStep, hnd, Bool.false_eq_true, if_false, renameCall]
  cases hsrc : existsPath fs (ext ++ [t]) <;> simp [hsrc, hex]

theorem file_destination_not_removed_witness :
    existsPath [(["Addons"], NodeKind.dir), (["Addons", "ElvUI"], NodeKind.file)]
      (root0 ++ ["ElvUI"]) = true ∧
    isDir [(["Addons"], NodeKind.dir), (["Addons", "ElvUI"], NodeKind.file)]
      (root0 ++ ["ElvUI"]) = false ∧
    swapStep envOk root0 (tmp0 ++ ["elvui"])
        [(["Addons"], NodeKind.dir), (["Addons", "ElvUI"], NodeKind.file)] "ElvUI" =
      ([(["Addons"], NodeKind.dir), (["Addons", "ElvUI"], NodeKind.file)],
       some (if existsPath
               [(["Addons"], NodeKind.dir), (["Addons", "ElvUI"], NodeKind.file)]
               (tmp0 ++ ["elvui"] ++ ["ElvUI"]) = false then renameSrcMissingMsg
             else renameDstOccupiedMsg),
       [Op.renameOp (tmp0 ++ ["elvui"] ++ ["ElvUI"]) (root0 ++ ["ElvUI"])]) :=
  ⟨by decide, by decide,
    file_destination_not_removed envOk root0 (tmp0 ++ ["elvui"])
      [(["Addons"], NodeKind.dir), (["Addons", "ElvUI"], NodeKind.file)] "ElvUI"
      (by decide) (by decide)⟩

/-- C3: on every return of `install` once the precondition check passed
and the scratch directory could be created — success, download failure,
extraction failure or swap failure — the scratch subtree is gone from
the final filesystem: errors return through the `TempDir` drop and
success calls `close()` (main.rs lines 118-121, 163-166).  The scratch
path is fresh (the tempfile builder guarantees a unique new name) and
`close()` itself does not fail. -/
theorem scratch_removed_on_every_path (env : InstallEnv) (addonsPath : Path)
    (version : String) (fs : FS)
    (hfresh : freshFor env.tmp fs = true)
    (htd : env.tempdirErr = none)
    (hclose : env.closeErr = none) :
    freshFor env.tmp (install env addonsPath version fs).fs = true := by
  unfold install
  split
  · repeat' split
    all_goals try simp_all [dropScratch, freshFor_removeSubtree]
    all_goals (split <;> simp_all [freshFor_removeSubtree])
  · simpa using hfresh

theorem scratch_removed_on_every_path_witness :
    freshFor tmp0 fs0 = true ∧
    freshFor tmp0 (install envOk root0 "12.66" fs0).fs = true :=
  ⟨by decide, scratch_removed_on_every_path envOk root0 "12.66" fs0 (by decide) rfl rfl⟩

end Elvui
